import Mathlib

/-!
Verification of the resume screening and ranking application (src/app.py).

The development shallowly embeds the two core functions of the source,
`extract_text_from_pdf` and `rank_resumes`, together with the page-level
processing logic (input guards, the per-file extraction loop with its
fail-fast policy, the branch dispatch after extraction, and the pandas
`sort_values` presentation step).

Modelling choices:
- Python floats are modelled as real numbers (`ℝ`).
- Exceptions are modelled as explicit data: `extract_text_from_pdf`
  returns `Option String` (the source catches every exception and returns
  `None`), and `rank_resumes` returns `Option (List ℝ)` (`none` models the
  `ValueError` that sklearn's `TfidfVectorizer` raises on an empty
  vocabulary, which the call site does not catch).
- sklearn's default analyzer (lowercasing, token pattern `\w\w+`, i.e.
  maximal runs of at least two word characters) is embedded as `tokenize`;
  TF-IDF uses the default smooth idf `log((1+n)/(1+df)) + 1` and l2 row
  normalization, and `cosine_similarity` renormalizes rows (rows of zero
  norm are left unchanged, matching sklearn's `normalize`).
- pandas `sort_values(by="Score", ascending=False)` computes an ascending
  argsort and reverses it; it is embedded as a stable ascending merge sort
  followed by `List.reverse`.
-/

namespace ResumeApp

/-- A word character in the sense of the default sklearn token pattern
`(?u)\b\w\w+\b` (regex class `\w`). -/
def isWordChar (c : Char) : Bool := c.isAlphanum || c == '_'

/-- Accumulator-based scanner extracting the maximal runs of at least two
word characters from a character stream (the accumulator holds the current
run, reversed). -/
def tokenizeAux : List Char → List Char → List (List Char)
  | [], acc => if 2 ≤ acc.length then [acc.reverse] else []
  | c :: cs, acc =>
      if isWordChar c then tokenizeAux cs (c :: acc)
      else (if 2 ≤ acc.length then [acc.reverse] else []) ++ tokenizeAux cs []

/-- Tokenization performed by `TfidfVectorizer`'s default analyzer:
lowercase the document, then extract maximal runs of at least two word
characters. -/
def tokenize (s : String) : List (List Char) :=
  tokenizeAux (s.toList.map Char.toLower) []

/-- The vocabulary of a document set: the set of distinct tokens occurring
in any of the documents. -/
def vocabulary (docs : List String) : Finset (List Char) :=
  (docs.flatMap tokenize).toFinset

/-- Term frequency: number of occurrences of token `t` in document `d`. -/
def tf (t : List Char) (d : String) : ℕ := (tokenize d).count t

/-- Document frequency: number of documents of the set containing token
`t`. -/
def df (t : List Char) (docs : List String) : ℕ :=
  (docs.filter (fun d => (tokenize d).contains t)).length

/-- Smooth inverse document frequency used by `TfidfVectorizer` with its
default settings: `log((1 + n) / (1 + df)) + 1`. -/
noncomputable def idf (t : List Char) (docs : List String) : ℝ :=
  Real.log ((1 + (docs.length : ℝ)) / (1 + (df t docs : ℝ))) + 1

/-- Unnormalized TF-IDF row of document `d` over the document set `docs`,
as a function from tokens to weights. -/
noncomputable def tfidfRaw (docs : List String) (d : String) : List Char → ℝ :=
  fun t => (tf t d : ℝ) * idf t docs

/-- Dot product of two rows, over the vocabulary `V`. -/
noncomputable def dotV (V : Finset (List Char)) (u v : List Char → ℝ) : ℝ :=
  ∑ t ∈ V, u t * v t

/-- Euclidean norm of a row over the vocabulary `V`. -/
noncomputable def normV (V : Finset (List Char)) (u : List Char → ℝ) : ℝ :=
  Real.sqrt (dotV V u u)

/-- l2 row normalization as performed by sklearn's `normalize`: rows of
zero norm are left unchanged. -/
noncomputable def l2normalize (V : Finset (List Char)) (u : List Char → ℝ) :
    List Char → ℝ :=
  fun t => if normV V u = 0 then u t else u t / normV V u

/-- The TF-IDF row of document `d` produced by
`TfidfVectorizer().fit_transform(docs)` (default `norm="l2"`). -/
noncomputable def tfidfVec (docs : List String) (d : String) : List Char → ℝ :=
  l2normalize (vocabulary docs) (tfidfRaw docs d)

/-- sklearn's `cosine_similarity` of two rows: both rows are l2-normalized
(zero rows staying zero) and then multiplied. -/
noncomputable def cosineSim (V : Finset (List Char)) (u v : List Char → ℝ) : ℝ :=
  dotV V (l2normalize V u) (l2normalize V v)

/-- Embedding of `rank_resumes` (src/app.py lines 26-36): the document set
is the job description followed by the resumes; each document is mapped to
its TF-IDF row; the first row is the job-description vector and the
remaining rows are the resume vectors; the result is the list of cosine
similarities of each resume vector to the job-description vector.
`none` models the `ValueError` raised by `TfidfVectorizer` when the
combined vocabulary is empty. -/
noncomputable def rank_resumes (job_description : String) (resumes : List String) :
    Option (List ℝ) :=
  let documents := job_description :: resumes
  if vocabulary documents = ∅ then none
  else
    let vectors := documents.map (tfidfVec documents)
    let job_description_vector := vectors.headI
    let resume_vectors := vectors.tail
    some (resume_vectors.map (fun v =>
      cosineSim (vocabulary documents) job_description_vector v))

/-- The score `rank_resumes jd ctx` assigns to an individual resume text
`r`, as a standalone function (the context `ctx` is the full ordered resume
list, which fixes the vocabulary and the idf weights). -/
noncomputable def resumeScore (jd : String) (ctx : List String) (r : String) : ℝ :=
  cosineSim (vocabulary (jd :: ctx)) (tfidfVec (jd :: ctx) jd) (tfidfVec (jd :: ctx) r)

/-! ### PDF extraction and the page-level processing logic -/

/-- Outcome of `page.extract_text()` for one page: either a text string, or
a failure (`extract_text` raises, or returns `None` so that the source's
`text += page.extract_text()` raises `TypeError`). -/
inductive PageResult where
  | text (s : String)
  | failure
deriving DecidableEq

/-- An uploaded PDF as seen by `PdfReader`: either a parsable page list, or
`none` when the `PdfReader` constructor raises on a malformed document. -/
structure PdfFile where
  pages : Option (List PageResult)
deriving DecidableEq

/-- The page loop of `extract_text_from_pdf`: concatenate page texts onto
the accumulator; a page failure raises, which the enclosing handler turns
into `none`. -/
def extractPagesAux : String → List PageResult → Option String
  | acc, [] => some acc
  | acc, PageResult.text s :: rest => extractPagesAux (acc ++ s) rest
  | _, PageResult.failure :: _ => none

/-- Embedding of `extract_text_from_pdf` (src/app.py lines 12-22): parse
the PDF, concatenate the extracted text of every page in order; any
exception during parsing or page extraction is caught and yields `None`
(after a `st.error` side effect, not modelled). -/
def extract_text_from_pdf (file : PdfFile) : Option String :=
  match file.pages with
  | some ps => extractPagesAux "" ps
  | none => none

/-- An uploaded file: display name plus PDF content. -/
structure UploadedFile where
  name : String
  file : PdfFile
deriving DecidableEq

/-- Python truthiness of the extraction result: `None` and the empty string
are falsy (the source's `if text:`). -/
def truthy : Option String → Bool
  | none => false
  | some t => !t.isEmpty

/-- State produced by the source's per-file loop (src/app.py lines
100-110): the extracted texts, the corresponding file names, the
`valid_files` flag, and the number of files on which extraction was
actually attempted (the loop `break`s at the first failure). -/
structure LoopState where
  resumes : List String
  resume_names : List String
  valid_files : Bool
  attempted : ℕ
deriving DecidableEq

/-- Embedding of the per-file loop: extract each file in order; a truthy
text is appended (text and name); a falsy text sets `valid_files := False`
and `break`s, so later files are not attempted. -/
def processFiles : List UploadedFile → LoopState
  | [] => ⟨[], [], true, 0⟩
  | f :: rest =>
      let text := extract_text_from_pdf f.file
      if truthy text then
        let st := processFiles rest
        ⟨text.getD "" :: st.resumes, f.name :: st.resume_names,
         st.valid_files, st.attempted + 1⟩
      else
        ⟨[], [], false, 1⟩

/-- The user-visible outcome of one interaction with the page. -/
inductive Outcome where
  /-- The ranking table (name, score), as displayed and exported. -/
  | results (rows : List (String × ℝ))
  /-- "An error occurred during PDF processing.  Please check the file(s)." -/
  | errorBatch
  /-- "No resumes were successfully processed. Please check the PDF files." -/
  | warnNoResumes
  /-- "Please enter a job description to rank the resumes." -/
  | warnNoJD
  /-- "Please upload resumes to rank." -/
  | warnNoFiles
  /-- An exception propagates out of the processing block uncaught. -/
  | crash
  /-- No branch of the `if`/`elif` chain fires; nothing is shown. -/
  | silent

/-- Embedding of `results.sort_values(by="Score", ascending=False)`
(src/app.py line 118): for a descending sort, pandas (`nargsort`) reverses
the value array and the index array, computes an ascending argsort of the
reversed values with the default `kind="quicksort"`, and reverses the
resulting indexer again. Taking the rows through that index arithmetic is
reversing the row list, sorting it ascending by score, and reversing the
result. The inner argsort is numpy's introsort, whose relative order of
equal keys is unspecified (only its insertion-sort path for small arrays
is stable); a total Lean function must pick some tie order, and a merge
sort stands in here, but no theorem in this development relies on the
stand-in's tie order — only on the output being ordered by score, which
holds for any correct ascending argsort. -/
noncomputable def sortValuesDesc (rows : List (String × ℝ)) : List (String × ℝ) :=
  (rows.reverse.mergeSort (fun a b => decide (a.2 ≤ b.2))).reverse

/-- Embedding of the branch dispatch after the extraction loop (src/app.py
lines 112-137): on `valid_files`, rank when there is at least one resume
(an uncaught vectorizer error crashes), warn when there is none; otherwise
report the batch error. -/
noncomputable def afterExtraction (jd : String) (st : LoopState) : Outcome :=
  if st.valid_files then
    if !st.resumes.isEmpty then
      match rank_resumes jd st.resumes with
      | some scores => Outcome.results (sortValuesDesc (st.resume_names.zip scores))
      | none => Outcome.crash
    else Outcome.warnNoResumes
  else Outcome.errorBatch

/-- Embedding of the page's main `if`/`elif` chain (src/app.py lines
98-141), with Python truthiness of the job-description string and of the
uploaded-file list. -/
noncomputable def appMain (jd : String) (files : List UploadedFile) : Outcome :=
  if !files.isEmpty && !jd.isEmpty then
    afterExtraction jd (processFiles files)
  else if !files.isEmpty && jd.isEmpty then Outcome.warnNoJD
  else if !jd.isEmpty && files.isEmpty then Outcome.warnNoFiles
  else Outcome.silent

/-! ### Helper lemmas: the extraction loop -/

/-- Every text stored by the loop is nonempty (the `if text:` guard filters
out the empty string and `None`). -/
lemma processFiles_mem_resumes_ne_empty (files : List UploadedFile) :
    ∀ r ∈ (processFiles files).resumes, r ≠ "" := by
  induction files with
  | nil => intro r hr; simp [processFiles] at hr
  | cons f rest ih =>
      intro r hr
      by_cases h : truthy (extract_text_from_pdf f.file)
      · simp only [processFiles, if_pos h, List.mem_cons] at hr
        rcases hr with hr | hr
        · subst hr
          revert h
          cases hx : extract_text_from_pdf f.file with
          | none => simp [truthy]
          | some t =>
              simp only [truthy, Bool.not_eq_true', Option.getD_some]
              intro ht
              simp only [ne_eq, ← String.isEmpty_iff]
              simp [ht]
        · exact ih r hr
      · simp only [processFiles, if_neg h] at hr
        simp at hr

/-- If some file of the batch has a falsy extraction result, the loop ends
with `valid_files = False`. -/
lemma processFiles_valid_false_of_fail (files : List UploadedFile)
    (f : UploadedFile) (hmem : f ∈ files)
    (hfail : truthy (extract_text_from_pdf f.file) = false) :
    (processFiles files).valid_files = false := by
  induction files with
  | nil => simp at hmem
  | cons g rest ih =>
      rcases List.mem_cons.mp hmem with hg | hg
      · subst hg
        simp [processFiles, hfail]
      · by_cases h : truthy (extract_text_from_pdf g.file)
        · simp [processFiles, if_pos h, ih hg]
        · simp [processFiles, if_neg h]

/-- Fail-fast: with every file before `f` extracting to a truthy text and
`f` failing, the loop attempts exactly the files up to and including `f`
(the files after `f` are not attempted) and ends invalid. -/
lemma processFiles_append_fail (pre post : List UploadedFile) (f : UploadedFile)
    (hpre : ∀ g ∈ pre, truthy (extract_text_from_pdf g.file) = true)
    (hfail : truthy (extract_text_from_pdf f.file) = false) :
    (processFiles (pre ++ f :: post)).attempted = pre.length + 1 ∧
    (processFiles (pre ++ f :: post)).valid_files = false := by
  induction pre with
  | nil => simp [processFiles, hfail]
  | cons g rest ih =>
      have hg : truthy (extract_text_from_pdf g.file) = true :=
        hpre g (List.mem_cons_self g rest)
      have hrest := ih (fun x hx => hpre x (List.mem_cons_of_mem g hx))
      simp only [List.cons_append, processFiles, if_pos hg, List.length_cons]
      constructor
      · show (processFiles (rest ++ f :: post)).attempted + 1 = rest.length + 1 + 1
        rw [hrest.1]
      · show (processFiles (rest ++ f :: post)).valid_files = false
        exact hrest.2

/-! ### Helper lemmas: the input guards -/

/-- When both inputs are truthy, the page runs the processing block. -/
lemma appMain_process (jd : String) (files : List UploadedFile)
    (hjd : jd.isEmpty = false) (hfiles : files.isEmpty = false) :
    appMain jd files = afterExtraction jd (processFiles files) := by
  simp [appMain, hjd, hfiles]

/-! ### Helper lemmas: sorting -/

/-- The comparator used to embed `sort_values` is transitive. -/
lemma scoreLE_trans (a b c : String × ℝ)
    (hab : (decide (a.2 ≤ b.2)) = true) (hbc : (decide (b.2 ≤ c.2)) = true) :
    (decide (a.2 ≤ c.2)) = true := by
  simp only [decide_eq_true_eq] at *
  exact le_trans hab hbc

/-- The comparator used to embed `sort_values` is total. -/
lemma scoreLE_total (a b : String × ℝ) :
    ((decide (a.2 ≤ b.2)) || (decide (b.2 ≤ a.2))) = true := by
  simp only [Bool.or_eq_true, decide_eq_true_eq]
  exact le_total a.2 b.2

/-- The embedded `sort_values(ascending=False)` output is sorted by
descending score. -/
lemma sortValuesDesc_pairwise (rows : List (String × ℝ)) :
    (sortValuesDesc rows).Pairwise (fun a b => b.2 ≤ a.2) := by
  unfold sortValuesDesc
  rw [List.pairwise_reverse]
  have h := List.sorted_mergeSort scoreLE_trans scoreLE_total rows.reverse
  exact h.imp (by simp)

/-! ### Helper lemmas: PDF extraction -/

/-- Dichotomy for the page loop, generalized over the accumulator: it
either fails, or every page yielded a text and the result is the
accumulator followed by those texts in page order. -/
lemma extractPagesAux_dichotomy (ps : List PageResult) :
    ∀ acc : String, extractPagesAux acc ps = none ∨
      ∃ texts : List String, ps = texts.map PageResult.text ∧
        extractPagesAux acc ps = some (texts.foldl (fun a b => a ++ b) acc) := by
  induction ps with
  | nil =>
      intro acc
      exact Or.inr ⟨[], rfl, rfl⟩
  | cons p rest ih =>
      intro acc
      cases p with
      | failure => exact Or.inl rfl
      | text s =>
          rcases ih (acc ++ s) with h | ⟨texts, hts, hres⟩
          · exact Or.inl h
          · exact Or.inr ⟨s :: texts, by simp [hts], by simpa [extractPagesAux] using hres⟩

/-! ### Helper lemmas: TF-IDF and cosine similarity -/

/-- The smooth idf weight is at least 1 (hence positive): `df ≤ n`, so the
log argument is at least 1. -/
lemma one_le_idf (t : List Char) (docs : List String) : 1 ≤ idf t docs := by
  unfold idf
  have hdf : (df t docs : ℝ) ≤ (docs.length : ℝ) := by
    exact_mod_cast List.length_filter_le _ docs
  have hpos : (0 : ℝ) < 1 + (df t docs : ℝ) := by positivity
  have h1 : (1 : ℝ) ≤ (1 + (docs.length : ℝ)) / (1 + (df t docs : ℝ)) := by
    rw [le_div_iff₀ hpos]
    linarith
  have h2 := Real.log_nonneg h1
  linarith

/-- TF-IDF weights are non-negative. -/
lemma tfidfRaw_nonneg (docs : List String) (d : String) (t : List Char) :
    0 ≤ tfidfRaw docs d t :=
  mul_nonneg (Nat.cast_nonneg _) (le_trans zero_le_one (one_le_idf t docs))

lemma dotV_self_nonneg (V : Finset (List Char)) (u : List Char → ℝ) :
    0 ≤ dotV V u u :=
  Finset.sum_nonneg fun t _ => mul_self_nonneg (u t)

lemma normV_nonneg (V : Finset (List Char)) (u : List Char → ℝ) :
    0 ≤ normV V u :=
  Real.sqrt_nonneg _

lemma l2normalize_nonneg (V : Finset (List Char)) (u : List Char → ℝ)
    (hu : ∀ t, 0 ≤ u t) (t : List Char) : 0 ≤ l2normalize V u t := by
  unfold l2normalize
  split
  · exact hu t
  · exact div_nonneg (hu t) (normV_nonneg V u)

lemma dotV_nonneg (V : Finset (List Char)) (u v : List Char → ℝ)
    (hu : ∀ t, 0 ≤ u t) (hv : ∀ t, 0 ≤ v t) : 0 ≤ dotV V u v :=
  Finset.sum_nonneg fun t _ => mul_nonneg (hu t) (hv t)

lemma dotV_self_eq_sum_sq (V : Finset (List Char)) (u : List Char → ℝ) :
    dotV V u u = ∑ t ∈ V, u t ^ 2 := by
  unfold dotV
  refine Finset.sum_congr rfl fun t _ => ?_
  rw [pow_two]

/-- Cauchy-Schwarz for the vocabulary-indexed dot product. -/
lemma dotV_le_norm_mul_norm (V : Finset (List Char)) (u v : List Char → ℝ) :
    dotV V u v ≤ normV V u * normV V v := by
  have hcs : (∑ t ∈ V, u t * v t) ^ 2 ≤ (∑ t ∈ V, u t ^ 2) * ∑ t ∈ V, v t ^ 2 :=
    Finset.sum_mul_sq_le_sq_mul_sq V u v
  calc dotV V u v ≤ |dotV V u v| := le_abs_self _
    _ = Real.sqrt (dotV V u v ^ 2) := (Real.sqrt_sq_eq_abs _).symm
    _ ≤ Real.sqrt ((∑ t ∈ V, u t ^ 2) * ∑ t ∈ V, v t ^ 2) := Real.sqrt_le_sqrt hcs
    _ = Real.sqrt (∑ t ∈ V, u t ^ 2) * Real.sqrt (∑ t ∈ V, v t ^ 2) :=
        Real.sqrt_mul (Finset.sum_nonneg fun t _ => sq_nonneg (u t)) _
    _ = normV V u * normV V v := by
        unfold normV
        rw [dotV_self_eq_sum_sq, dotV_self_eq_sum_sq]

/-- The norm of an l2-normalized row is 1, except for the zero row, which
stays of norm 0. -/
lemma normV_l2normalize (V : Finset (List Char)) (u : List Char → ℝ) :
    normV V (l2normalize V u) = if normV V u = 0 then 0 else 1 := by
  by_cases h : normV V u = 0
  · rw [if_pos h]
    have hu : l2normalize V u = u := by
      funext t
      unfold l2normalize
      rw [if_pos h]
    rw [hu]
    exact h
  · rw [if_neg h]
    have hdot : dotV V (l2normalize V u) (l2normalize V u)
        = dotV V u u / normV V u ^ 2 := by
      unfold dotV l2normalize
      rw [Finset.sum_div]
      refine Finset.sum_congr rfl fun t _ => ?_
      rw [if_neg h]
      ring
    have key : normV V u ^ 2 = dotV V u u := Real.sq_sqrt (dotV_self_nonneg V u)
    show Real.sqrt (dotV V (l2normalize V u) (l2normalize V u)) = 1
    rw [hdot, ← key, div_self (pow_ne_zero 2 h), Real.sqrt_one]

/-- Cosine similarity never exceeds 1. -/
lemma cosineSim_le_one (V : Finset (List Char)) (u v : List Char → ℝ) :
    cosineSim V u v ≤ 1 := by
  unfold cosineSim
  calc dotV V (l2normalize V u) (l2normalize V v)
      ≤ normV V (l2normalize V u) * normV V (l2normalize V v) :=
        dotV_le_norm_mul_norm V _ _
    _ ≤ 1 := by
        rw [normV_l2normalize, normV_l2normalize]
        split <;> split <;> norm_num

/-- Cosine similarity of rows with non-negative entries is non-negative. -/
lemma cosineSim_nonneg (V : Finset (List Char)) (u v : List Char → ℝ)
    (hu : ∀ t, 0 ≤ u t) (hv : ∀ t, 0 ≤ v t) : 0 ≤ cosineSim V u v :=
  dotV_nonneg V _ _ (l2normalize_nonneg V u hu) (l2normalize_nonneg V v hv)

/-- Normalization maps zero entries to zero entries. -/
lemma l2normalize_entry_zero (V : Finset (List Char)) (u : List Char → ℝ)
    (t : List Char) (h : u t = 0) : l2normalize V u t = 0 := by
  unfold l2normalize
  split
  · exact h
  · rw [h, zero_div]

/-- TF-IDF rows have non-negative entries after normalization. -/
lemma tfidfVec_nonneg (docs : List String) (d : String) (t : List Char) :
    0 ≤ tfidfVec docs d t :=
  l2normalize_nonneg _ _ (tfidfRaw_nonneg docs d) t

/-- A token absent from a document has term frequency 0 there. -/
lemma tf_eq_zero_of_not_mem (t : List Char) (d : String)
    (h : t ∉ tokenize d) : tf t d = 0 :=
  List.count_eq_zero.mpr h

/-- Two documents sharing no token have cosine similarity exactly 0. -/
lemma cosineSim_tfidf_zero (docs : List String) (d1 d2 : String)
    (h : ∀ t, t ∉ tokenize d1 ∨ t ∉ tokenize d2) :
    cosineSim (vocabulary docs) (tfidfVec docs d1) (tfidfVec docs d2) = 0 := by
  unfold cosineSim dotV
  refine Finset.sum_eq_zero fun t _ => ?_
  rcases h t with h1 | h1
  · have hz : tfidfVec docs d1 t = 0 := by
      unfold tfidfVec
      refine l2normalize_entry_zero _ _ _ ?_
      unfold tfidfRaw
      rw [tf_eq_zero_of_not_mem t d1 h1]
      simp
    rw [l2normalize_entry_zero _ _ _ hz, zero_mul]
  · have hz : tfidfVec docs d2 t = 0 := by
      unfold tfidfVec
      refine l2normalize_entry_zero _ _ _ ?_
      unfold tfidfRaw
      rw [tf_eq_zero_of_not_mem t d2 h1]
      simp
    rw [l2normalize_entry_zero _ _ _ hz, mul_zero]

/-! ### Helper lemmas: structure of `rank_resumes` -/

/-- When the vocabulary is non-empty, `rank_resumes` returns the per-resume
scores in input order. -/
lemma rank_resumes_eq_map (jd : String) (resumes : List String)
    (h : vocabulary (jd :: resumes) ≠ ∅) :
    rank_resumes jd resumes = some (resumes.map (resumeScore jd resumes)) := by
  unfold rank_resumes
  rw [if_neg h]
  simp only [List.map_cons, List.headI_cons, List.tail_cons, List.map_map]
  rfl

/-- Indexing a mapped score list. -/
lemma getD_map_resumeScore (jd : String) (resumes : List String) (i : ℕ)
    (hi : i < resumes.length) :
    (resumes.map (resumeScore jd resumes)).getD i 0
      = resumeScore jd resumes (resumes.getD i "") := by
  rw [List.getD_eq_getElem?_getD, List.getD_eq_getElem?_getD, List.getElem?_map,
    List.getElem?_eq_getElem hi]
  simp

/-! ### Helper lemmas: permutation invariance -/

lemma vocabulary_perm (docs1 docs2 : List String) (h : docs1.Perm docs2) :
    vocabulary docs1 = vocabulary docs2 :=
  List.toFinset_eq_of_perm _ _ (h.flatMap_right tokenize)

lemma df_perm (t : List Char) (docs1 docs2 : List String) (h : docs1.Perm docs2) :
    df t docs1 = df t docs2 :=
  (h.filter _).length_eq

lemma idf_perm (t : List Char) (docs1 docs2 : List String) (h : docs1.Perm docs2) :
    idf t docs1 = idf t docs2 := by
  unfold idf
  rw [df_perm t docs1 docs2 h, h.length_eq]

lemma tfidfRaw_perm (docs1 docs2 : List String) (d : String) (h : docs1.Perm docs2) :
    tfidfRaw docs1 d = tfidfRaw docs2 d := by
  funext t
  unfold tfidfRaw
  rw [idf_perm t docs1 docs2 h]

lemma tfidfVec_perm (docs1 docs2 : List String) (d : String) (h : docs1.Perm docs2) :
    tfidfVec docs1 d = tfidfVec docs2 d := by
  unfold tfidfVec
  rw [tfidfRaw_perm docs1 docs2 d h, vocabulary_perm docs1 docs2 h]

/-- The score of an individual resume depends on the resume batch only up
to permutation. -/
lemma resumeScore_perm (jd : String) (rs1 rs2 : List String) (r : String)
    (h : rs1.Perm rs2) :
    resumeScore jd rs1 r = resumeScore jd rs2 r := by
  have hd : (jd :: rs1).Perm (jd :: rs2) := h.cons jd
  unfold resumeScore
  rw [vocabulary_perm _ _ hd, tfidfVec_perm _ _ jd hd, tfidfVec_perm _ _ r hd]

/-! ### Claim theorems -/

/-- C1: batch extraction stops at the first document whose extraction
fails — extraction is attempted on exactly the documents up to and
including the first failing one, so subsequent documents are not
attempted — the batch is marked invalid (the batch error is reported), and
no ranking result is produced. -/
theorem batch_fail_fast (jd : String) (pre post : List UploadedFile)
    (f : UploadedFile) (hjd : jd.isEmpty = false)
    (hpre : ∀ g ∈ pre, truthy (extract_text_from_pdf g.file) = true)
    (hfail : truthy (extract_text_from_pdf f.file) = false) :
    appMain jd (pre ++ f :: post) = Outcome.errorBatch ∧
    (processFiles (pre ++ f :: post)).attempted = pre.length + 1 ∧
    ∀ rows, appMain jd (pre ++ f :: post) ≠ Outcome.results rows := by
  have hloop := processFiles_append_fail pre post f hpre hfail
  have hfiles : (pre ++ f :: post).isEmpty = false := by simp
  have hmain := appMain_process jd (pre ++ f :: post) hjd hfiles
  have herr : afterExtraction jd (processFiles (pre ++ f :: post)) = Outcome.errorBatch := by
    unfold afterExtraction
    rw [hloop.2]
    simp
  refine ⟨hmain.trans herr, hloop.1, fun rows hcontra => ?_⟩
  rw [hmain, herr] at hcontra
  exact Outcome.noConfusion hcontra

theorem batch_fail_fast_witness :
    appMain "ab" [⟨"good.pdf", ⟨some [PageResult.text "ok"]⟩⟩,
        ⟨"bad.pdf", ⟨none⟩⟩, ⟨"later.pdf", ⟨some [PageResult.text "xy"]⟩⟩]
      = Outcome.errorBatch ∧
    (processFiles [⟨"good.pdf", ⟨some [PageResult.text "ok"]⟩⟩,
        ⟨"bad.pdf", ⟨none⟩⟩, ⟨"later.pdf", ⟨some [PageResult.text "xy"]⟩⟩]).attempted = 2 :=
  ⟨(batch_fail_fast "ab" [⟨"good.pdf", ⟨some [PageResult.text "ok"]⟩⟩]
      [⟨"later.pdf", ⟨some [PageResult.text "xy"]⟩⟩] ⟨"bad.pdf", ⟨none⟩⟩
      rfl (by decide) rfl).1,
   (batch_fail_fast "ab" [⟨"good.pdf", ⟨some [PageResult.text "ok"]⟩⟩]
      [⟨"later.pdf", ⟨some [PageResult.text "xy"]⟩⟩] ⟨"bad.pdf", ⟨none⟩⟩
      rfl (by decide) rfl).2.1⟩

/-- C2 (counterexample to the claim as stated): the non-empty job
description "a" and the non-empty resume list ["b"] produce an empty
combined vocabulary, so the vectorizer raises and `rank_resumes` returns no
scores at all, rather than one score per input resume. -/
theorem rank_nonempty_input_no_scores :
    rank_resumes "a" ["b"] = none ∧ ("a" : String) ≠ "" ∧
    (["b"] : List String) ≠ [] := by
  refine ⟨?_, by decide, by decide⟩
  have h : vocabulary ["a", "b"] = ∅ := by decide
  unfold rank_resumes
  rw [if_pos h]

/-- C2 (amended): for every non-empty job description and non-empty resume
list whose combined vocabulary is non-empty, `rank_resumes` returns exactly
one score per input resume, and the i-th score is the score of the i-th
input resume. -/
theorem rank_resumes_scores_align (jd : String) (resumes : List String)
    (hjd : jd ≠ "") (hres : resumes ≠ [])
    (hvocab : vocabulary (jd :: resumes) ≠ ∅) :
    ∃ scores : List ℝ, rank_resumes jd resumes = some scores ∧
      scores.length = resumes.length ∧
      ∀ i : ℕ, i < resumes.length →
        scores.getD i 0 = resumeScore jd resumes (resumes.getD i "") := by
  refine ⟨resumes.map (resumeScore jd resumes),
    rank_resumes_eq_map jd resumes hvocab, by simp, ?_⟩
  intro i hi
  exact getD_map_resumeScore jd resumes i hi

theorem rank_resumes_scores_align_witness :
    ∃ scores : List ℝ, rank_resumes "ab" ["ab cd", "cd"] = some scores ∧
      scores.length = (["ab cd", "cd"] : List String).length ∧
      ∀ i : ℕ, i < (["ab cd", "cd"] : List String).length →
        scores.getD i 0
          = resumeScore "ab" ["ab cd", "cd"] ((["ab cd", "cd"] : List String).getD i "") :=
  rank_resumes_scores_align "ab" ["ab cd", "cd"] (by decide) (by decide) (by decide)

/-- C7: every score returned by the ranker lies in [0,1] (non-negativity
from the non-negative TF-IDF weights), and a resume sharing no token with
the job description scores exactly 0. -/
theorem rank_scores_unit_interval (jd : String) (resumes : List String)
    (scores : List ℝ) (h : rank_resumes jd resumes = some scores) :
    (∀ s ∈ scores, 0 ≤ s ∧ s ≤ 1) ∧
    ∀ i : ℕ, i < resumes.length →
      (tokenize jd).toFinset ∩ (tokenize (resumes.getD i "")).toFinset = ∅ →
      scores.getD i 0 = 0 := by
  have hvocab : vocabulary (jd :: resumes) ≠ ∅ := by
    intro hv
    unfold rank_resumes at h
    rw [if_pos hv] at h
    exact Option.noConfusion h
  have hmap := rank_resumes_eq_map jd resumes hvocab
  rw [hmap] at h
  have hs : scores = resumes.map (resumeScore jd resumes) := (Option.some.inj h).symm
  subst hs
  constructor
  · intro s hsmem
    rcases List.mem_map.mp hsmem with ⟨r, _, hrs⟩
    rw [← hrs]
    exact ⟨cosineSim_nonneg _ _ _ (tfidfVec_nonneg _ _) (tfidfVec_nonneg _ _),
      cosineSim_le_one _ _ _⟩
  · intro i hi hdisj
    rw [getD_map_resumeScore jd resumes i hi]
    refine cosineSim_tfidf_zero (jd :: resumes) jd (resumes.getD i "") fun t => ?_
    by_cases h1 : t ∈ tokenize jd
    · right
      intro h2
      have hmemint : t ∈ (tokenize jd).toFinset ∩ (tokenize (resumes.getD i "")).toFinset :=
        Finset.mem_inter.mpr ⟨List.mem_toFinset.mpr h1, List.mem_toFinset.mpr h2⟩
      rw [hdisj] at hmemint
      exact Finset.not_mem_empty t hmemint
    · exact Or.inl h1

theorem rank_scores_unit_interval_witness :
    (∀ s ∈ (["cd"] : List String).map (resumeScore "ab" ["cd"]), 0 ≤ s ∧ s ≤ 1) ∧
    ∀ i : ℕ, i < (["cd"] : List String).length →
      (tokenize "ab").toFinset ∩ (tokenize ((["cd"] : List String).getD i "")).toFinset = ∅ →
      ((["cd"] : List String).map (resumeScore "ab" ["cd"])).getD i 0 = 0 :=
  rank_scores_unit_interval "ab" ["cd"] _ (rank_resumes_eq_map "ab" ["cd"] (by decide))

/-- C8: ranking is invariant under permutations of the resume list — both
the original and the permuted list are scored by the same per-resume score
function, so the permuted input yields exactly the identically permuted
scores, each individual score value unchanged. -/
theorem rank_resumes_perm_invariant (jd : String) (rs1 rs2 : List String)
    (hperm : rs1.Perm rs2) (hvocab : vocabulary (jd :: rs1) ≠ ∅) :
    rank_resumes jd rs1 = some (rs1.map (resumeScore jd rs1)) ∧
    rank_resumes jd rs2 = some (rs2.map (resumeScore jd rs1)) ∧
    (rs1.map (resumeScore jd rs1)).Perm (rs2.map (resumeScore jd rs1)) := by
  have hd : (jd :: rs1).Perm (jd :: rs2) := hperm.cons jd
  have hvocab2 : vocabulary (jd :: rs2) ≠ ∅ := by
    rw [← vocabulary_perm _ _ hd]
    exact hvocab
  have hfun : resumeScore jd rs2 = resumeScore jd rs1 :=
    funext fun r => (resumeScore_perm jd rs1 rs2 r hperm).symm
  refine ⟨rank_resumes_eq_map jd rs1 hvocab, ?_, hperm.map _⟩
  rw [rank_resumes_eq_map jd rs2 hvocab2, hfun]

theorem rank_resumes_perm_invariant_witness :
    rank_resumes "ab" ["ab", "cd"]
      = some ((["ab", "cd"] : List String).map (resumeScore "ab" ["ab", "cd"])) ∧
    rank_resumes "ab" ["cd", "ab"]
      = some ((["cd", "ab"] : List String).map (resumeScore "ab" ["ab", "cd"])) ∧
    ((["ab", "cd"] : List String).map (resumeScore "ab" ["ab", "cd"])).Perm
      ((["cd", "ab"] : List String).map (resumeScore "ab" ["ab", "cd"])) :=
  rank_resumes_perm_invariant "ab" ["ab", "cd"] ["cd", "ab"] (by decide) (by decide)


/-- C4 (the code contradicts the claim): with the non-empty job description
"a" and a resume extracting to the non-empty text "b", both inputs pass the
guards, but the combined vocabulary is empty, so the vectorizer raises; the
call site has no handler, and the exception propagates out uncaught instead
of being surfaced as a user-facing error message. -/
theorem vectorizer_error_uncaught :
    appMain "a" [⟨"resume.pdf", ⟨some [PageResult.text "b"]⟩⟩] = Outcome.crash := by
  have hrank : rank_resumes "a" ["b"] = none := by
    have h : vocabulary ["a", "b"] = ∅ := by decide
    unfold rank_resumes
    rw [if_pos h]
  have hmain := appMain_process "a" [⟨"resume.pdf", ⟨some [PageResult.text "b"]⟩⟩] rfl rfl
  rw [hmain]
  have hloop : processFiles [⟨"resume.pdf", ⟨some [PageResult.text "b"]⟩⟩]
      = ⟨["b"], ["resume.pdf"], true, 1⟩ := rfl
  rw [hloop]
  unfold afterExtraction
  simp only [List.isEmpty_cons, Bool.not_false, if_true, hrank]

/-- C5 (counterexample to the claim as stated): when the job description
and the uploaded files are both missing, no branch of the `if`/`elif` chain
fires — the page emits no warning at all, contradicting the claim that a
warning is emitted in all three cases. -/
theorem both_missing_no_warning :
    appMain "" [] = Outcome.silent ∧
    Outcome.silent ≠ Outcome.warnNoJD ∧
    Outcome.silent ≠ Outcome.warnNoFiles ∧
    Outcome.silent ≠ Outcome.warnNoResumes :=
  ⟨rfl, fun h => Outcome.noConfusion h, fun h => Outcome.noConfusion h,
   fun h => Outcome.noConfusion h⟩

/-- C5 (amended): the ranker is never invoked on missing input; a
user-facing warning is emitted when exactly one of the two inputs is
missing, but when both are missing the page stays silent (no warning). -/
theorem input_guard_behavior (jd : String) (files : List UploadedFile) :
    (files ≠ [] → jd = "" → appMain jd files = Outcome.warnNoJD) ∧
    (files = [] → jd ≠ "" → appMain jd files = Outcome.warnNoFiles) ∧
    (files = [] → jd = "" → appMain jd files = Outcome.silent) := by
  refine ⟨?_, ?_, ?_⟩
  · intro hf hj
    subst hj
    have h1 : files.isEmpty = false := by
      cases files with
      | nil => exact absurd rfl hf
      | cons f rest => rfl
    unfold appMain
    rw [h1]
    rfl
  · intro hf hj
    subst hf
    have h1 : jd.isEmpty = false :=
      Bool.eq_false_iff.mpr fun h => hj ((String.isEmpty_iff jd).mp h)
    unfold appMain
    rw [h1]
    rfl
  · intro hf hj
    subst hf
    subst hj
    rfl

theorem input_guard_behavior_witness :
    appMain "" [⟨"r.pdf", ⟨none⟩⟩] = Outcome.warnNoJD ∧
    appMain "ab" [] = Outcome.warnNoFiles ∧
    appMain "" [] = Outcome.silent :=
  ⟨(input_guard_behavior "" [⟨"r.pdf", ⟨none⟩⟩]).1 (List.cons_ne_nil _ _) rfl,
   (input_guard_behavior "ab" []).2.1 rfl (by decide),
   (input_guard_behavior "" []).2.2 rfl rfl⟩

/-- C6: a batch containing a resume whose extracted text is the empty
string (or whose extraction fails) is rejected with the batch error under
the fail-fast policy; no ranking result is produced, and the empty text is
never among the texts handed to the ranker (so it is never scored, let
alone silently scored as 0). -/
theorem empty_text_rejects_batch (jd : String) (files : List UploadedFile)
    (f : UploadedFile) (hjd : jd.isEmpty = false) (hmem : f ∈ files)
    (hempty : extract_text_from_pdf f.file = some "" ∨
      extract_text_from_pdf f.file = none) :
    appMain jd files = Outcome.errorBatch ∧
    (∀ rows, appMain jd files ≠ Outcome.results rows) ∧
    "" ∉ (processFiles files).resumes := by
  have hfail : truthy (extract_text_from_pdf f.file) = false := by
    rcases hempty with h | h <;> rw [h] <;> rfl
  have hvalid := processFiles_valid_false_of_fail files f hmem hfail
  have hfiles : files.isEmpty = false := by
    cases files with
    | nil => simp at hmem
    | cons g rest => rfl
  have hmain := appMain_process jd files hjd hfiles
  have herr : afterExtraction jd (processFiles files) = Outcome.errorBatch := by
    unfold afterExtraction
    rw [hvalid]
    simp
  refine ⟨hmain.trans herr, fun rows hcontra => ?_, fun hmem2 => ?_⟩
  · rw [hmain, herr] at hcontra
    exact Outcome.noConfusion hcontra
  · exact processFiles_mem_resumes_ne_empty files "" hmem2 rfl

theorem empty_text_rejects_batch_witness :
    appMain "ab" [⟨"blank.pdf", ⟨some [PageResult.text ""]⟩⟩] = Outcome.errorBatch ∧
    "" ∉ (processFiles [⟨"blank.pdf", ⟨some [PageResult.text ""]⟩⟩]).resumes :=
  ⟨(empty_text_rejects_batch "ab" [⟨"blank.pdf", ⟨some [PageResult.text ""]⟩⟩]
      ⟨"blank.pdf", ⟨some [PageResult.text ""]⟩⟩ rfl (by decide) (Or.inl rfl)).1,
   (empty_text_rejects_batch "ab" [⟨"blank.pdf", ⟨some [PageResult.text ""]⟩⟩]
      ⟨"blank.pdf", ⟨some [PageResult.text ""]⟩⟩ rfl (by decide) (Or.inl rfl)).2.2⟩

/-- C9: after the loop, a valid batch with zero extracted resumes is
reported with the distinct "no resumes" warning, while any extraction
failure is reported as the batch error — and the two outcomes differ. -/
theorem no_resumes_warning_distinct (jd : String) (st : LoopState) :
    (st.valid_files = true → st.resumes = [] →
      afterExtraction jd st = Outcome.warnNoResumes) ∧
    (st.valid_files = false → afterExtraction jd st = Outcome.errorBatch) ∧
    Outcome.warnNoResumes ≠ Outcome.errorBatch := by
  refine ⟨?_, ?_, fun h => Outcome.noConfusion h⟩
  · intro hv hr
    unfold afterExtraction
    rw [hv, hr]
    rfl
  · intro hv
    unfold afterExtraction
    rw [hv]
    rfl

theorem no_resumes_warning_distinct_witness :
    afterExtraction "ab" ⟨[], [], true, 0⟩ = Outcome.warnNoResumes ∧
    afterExtraction "ab" ⟨[], [], false, 1⟩ = Outcome.errorBatch :=
  ⟨(no_resumes_warning_distinct "ab" ⟨[], [], true, 0⟩).1 rfl rfl,
   (no_resumes_warning_distinct "ab" ⟨[], [], false, 1⟩).2.1 rfl⟩

/-- C10: `extract_text_from_pdf` is total over its error domain — for every
input it either returns `None` (every parsing or page-extraction exception
is caught inside the function), or every page yielded a text and the result
is the concatenation of the per-page texts in page order. -/
theorem extract_text_total (file : PdfFile) :
    extract_text_from_pdf file = none ∨
    ∃ texts : List String, file.pages = some (texts.map PageResult.text) ∧
      extract_text_from_pdf file = some (texts.foldl (fun a b => a ++ b) "") := by
  cases hp : file.pages with
  | none =>
      left
      unfold extract_text_from_pdf
      rw [hp]
  | some ps =>
      have hbody : extract_text_from_pdf file = extractPagesAux "" ps := by
        unfold extract_text_from_pdf
        rw [hp]
      rcases extractPagesAux_dichotomy ps "" with h | ⟨texts, hts, hres⟩
      · exact Or.inl (hbody.trans h)
      · exact Or.inr ⟨texts, by rw [hts], hbody.trans hres⟩

end ResumeApp
